import Mathlib

/-!
Verification of the code-rag incremental indexing core against its
natural-language specification.

The definitions below are a shallow embedding of the Python sources:

* `src/file_watcher.py` — the pending-change ledger merge rule
  (`ProjectWatcher._drain_queue`), the batch cap (`_process_batch`),
  the single-batch-in-flight scheduler (`_trigger_processing`), and the
  per-path error isolation of the two batch phases.
* `src/ast_chunking.py` — the iterative AST chunk collection
  (`chunk_with_ast`).
* `src/chunking.py` — the effective (second) definition of
  `chunk_default`, the fixed-size terminal chunker.

Machine strings are modelled as Lean `String`/`List Char`; Python byte
offsets coincide with character offsets on the ASCII inputs used in the
concrete scenarios. Python's unbounded ints are `Int`/`Nat`.
-/

namespace CodeRag

/- ## Pending-change ledger (src/file_watcher.py, `_drain_queue`) -/

/-- The action stored in the pending-change ledger for a path. -/
inductive FAction where
  | created
  | modified
  | deleted
deriving DecidableEq, Repr

/-- A ledger maps a path to its merged pending action (Python dict
`_pending_changes`, viewed as a partial map). -/
def Ledger : Type := String → Option FAction

/-- Point update of a ledger (`self._pending_changes[path] = a`). -/
def ledgerSet (L : Ledger) (path : String) (a : FAction) : Ledger :=
  fun q => if q = path then some a else L q

/-- One iteration of the merge loop in `ProjectWatcher._drain_queue`
(file_watcher.py lines 190-198): delete always wins; a delete followed by a
recreate collapses to modified; otherwise the incoming action wins. -/
def drainStep (L : Ledger) (ev : String × FAction) : Ledger :=
  let path := ev.1
  let action := ev.2
  let existing := L path
  if action = FAction.deleted then
    ledgerSet L path FAction.deleted
  else if existing = some FAction.deleted then
    ledgerSet L path FAction.modified
  else
    ledgerSet L path action

/-- Folding a whole event sequence into the ledger, in arrival order. -/
def drainAll (L : Ledger) (evs : List (String × FAction)) : Ledger :=
  evs.foldl drainStep L

/- ## Batch cap (src/file_watcher.py, `_process_batch` lines 253-264) -/

/-- Result of snapshotting the ledger and applying the batch cap:
the entries processed now and the overflow put back into the live ledger. -/
structure BatchSplit where
  processed : List (String × FAction)
  requeued : List (String × FAction)
deriving DecidableEq, Repr

/-- The cap logic of `_process_batch`: if the snapshot exceeds
`max_batch_size`, process the first `cap` items (dict iteration order) and
re-queue the rest; otherwise process everything. -/
def capBatch (cap : Nat) (snapshot : List (String × FAction)) : BatchSplit :=
  if cap < snapshot.length then
    ⟨snapshot.take cap, snapshot.drop cap⟩
  else
    ⟨snapshot, []⟩

/- ## Batch phases with per-path error isolation
(src/file_watcher.py, `_process_batch` lines 277-328) -/

/-- The per-batch counters accumulated by `_process_batch`. -/
structure BatchCounters where
  indexed : Nat
  deleted : Nat
  skipped : Nat
  errors : Nat
deriving DecidableEq, Repr

/-- Phase 1 of `_process_batch`: for each deleted path call
`delete_by_path_async`; a positive removed-count counts as deleted, zero as
skipped, and an exception is caught and counted as an error while the loop
continues with the remaining paths. The collaborator call is modelled as a
function into `Except`. -/
def deletePhase (del : String → Except String Nat) :
    List String → BatchCounters → BatchCounters
  | [], c => c
  | p :: ps, c =>
    let c1 :=
      match del p with
      | Except.ok count =>
        if 0 < count then { c with deleted := c.deleted + 1 }
        else { c with skipped := c.skipped + 1 }
      | Except.error _ => { c with errors := c.errors + 1 }
    deletePhase del ps c1

/-- Phase 2 of `_process_batch`: for each upsert path, re-check existence,
then size (an OS error or a size over 1 MiB skips the file), then call
`add_file_async`; positive chunk count is indexed, zero is skipped, an
exception is caught and counted as an error while the loop continues. -/
def upsertPhase (exist : String → Bool) (stat : String → Except String Nat)
    (add : String → Except String Nat) :
    List String → BatchCounters → BatchCounters
  | [], c => c
  | p :: ps, c =>
    let c1 :=
      if exist p = false then { c with skipped := c.skipped + 1 }
      else
        match stat p with
        | Except.error _ => { c with skipped := c.skipped + 1 }
        | Except.ok size =>
          if 1024 * 1024 < size then { c with skipped := c.skipped + 1 }
          else
            match add p with
            | Except.ok chunks =>
              if 0 < chunks then { c with indexed := c.indexed + 1 }
              else { c with skipped := c.skipped + 1 }
            | Except.error _ => { c with errors := c.errors + 1 }
    upsertPhase exist stat add ps c1

/-- Whether the delete collaborator raises on a path. -/
def delFails (del : String → Except String Nat) (p : String) : Bool :=
  match del p with
  | Except.ok _ => false
  | Except.error _ => true

/-- Whether a delete succeeds with a positive removed-count. -/
def delHits (del : String → Except String Nat) (p : String) : Bool :=
  match del p with
  | Except.ok count => decide (0 < count)
  | Except.error _ => false

/-- Whether an upsert path passes the existence and size checks but the add
collaborator raises. -/
def upFails (exist : String → Bool) (stat : String → Except String Nat)
    (add : String → Except String Nat) (p : String) : Bool :=
  if exist p = false then false
  else
    match stat p with
    | Except.error _ => false
    | Except.ok size =>
      if 1024 * 1024 < size then false
      else
        match add p with
        | Except.ok _ => false
        | Except.error _ => true

/-- Whether an upsert path is fully processed with a positive chunk count. -/
def upHits (exist : String → Bool) (stat : String → Except String Nat)
    (add : String → Except String Nat) (p : String) : Bool :=
  if exist p = false then false
  else
    match stat p with
    | Except.error _ => false
    | Except.ok size =>
      if 1024 * 1024 < size then false
      else
        match add p with
        | Except.ok chunks => decide (0 < chunks)
        | Except.error _ => false

/-- The lifetime counters of a `ProjectWatcher` (`self.stats`). -/
structure WatcherStats where
  files_indexed : Nat
  files_deleted : Nat
  batches_processed : Nat
  errors : Nat
deriving DecidableEq, Repr

/-- The stats update at the end of `_process_batch` (lines 325-328). -/
def bumpStats (stats : WatcherStats) (r : BatchCounters) : WatcherStats :=
  { files_indexed := stats.files_indexed + r.indexed
    files_deleted := stats.files_deleted + r.deleted
    batches_processed := stats.batches_processed + 1
    errors := stats.errors + r.errors }

/- ## Scheduler state machine
(src/file_watcher.py, `_trigger_processing` lines 215-236 and
`_process_batch` lines 245-350) -/

/-- The interval a scheduled timer was armed with. -/
inductive TimerKind where
  | debounce
  | settle
deriving DecidableEq, Repr

/-- The scheduler-relevant state of a `ProjectWatcher`: the `_processing`
flag, the number of batches currently in flight, the `_stopped` flag, the
git-lock observation, the pending-change count and the armed timer. -/
structure WatcherState where
  processing : Bool
  inFlight : Nat
  stopped : Bool
  gitActive : Bool
  pending : Nat
  timer : Option TimerKind
deriving DecidableEq, Repr

/-- The state of a freshly constructed `ProjectWatcher`. -/
def initialWatcherState : WatcherState :=
  ⟨false, 0, false, false, 0, none⟩

/-- One asynchronous transition of the watcher. The `fire_` constructors
mirror the branches of `_trigger_processing`; `batch_start`/`batch_finish`
bracket `_process_batch`, which sets `_processing` before its first await
and clears it in its `finally` block (re-arming the debounce timer when
changes accumulated during processing). -/
inductive WatcherStep : WatcherState → WatcherState → Prop where
  | event_arrive (s : WatcherState) :
      WatcherStep s { s with pending := s.pending + 1,
                             timer := some TimerKind.debounce }
  | git_set (s : WatcherState) (b : Bool) :
      WatcherStep s { s with gitActive := b }
  | stop_watcher (s : WatcherState) :
      WatcherStep s { s with stopped := true, timer := none }
  | fire_stopped (s : WatcherState) :
      s.timer ≠ none → s.stopped = true →
      WatcherStep s { s with timer := none }
  | fire_git (s : WatcherState) :
      s.timer ≠ none → s.stopped = false → s.gitActive = true →
      WatcherStep s { s with timer := some TimerKind.settle }
  | fire_busy (s : WatcherState) :
      s.timer ≠ none → s.stopped = false → s.gitActive = false →
      s.processing = true →
      WatcherStep s { s with timer := some TimerKind.debounce }
  | fire_empty (s : WatcherState) :
      s.timer ≠ none → s.stopped = false → s.gitActive = false →
      s.processing = false → s.pending = 0 →
      WatcherStep s { s with timer := none }
  | batch_start (s : WatcherState) (overflow : Nat) :
      s.timer ≠ none → s.stopped = false → s.gitActive = false →
      s.processing = false → 0 < s.pending → overflow < s.pending →
      WatcherStep s { s with processing := true,
                             inFlight := s.inFlight + 1,
                             pending := overflow, timer := none }
  | batch_finish (s : WatcherState) :
      s.processing = true →
      WatcherStep s { s with processing := false,
                             inFlight := s.inFlight - 1,
                             timer := if s.pending = 0 then s.timer
                                      else some TimerKind.debounce }

/-- States reachable from the initial watcher state. -/
def WatcherReachable (s : WatcherState) : Prop :=
  Relation.ReflTransGen WatcherStep initialWatcherState s

/- ## AST chunker (src/ast_chunking.py, `chunk_with_ast`) -/

mutual
/-- A tree-sitter syntax node: grammar type, byte span into the source,
and the list of direct children. Sources in the concrete scenarios are
ASCII, so byte offsets coincide with character offsets. -/
inductive Node where
  | mk (type : String) (startByte : Nat) (endByte : Nat) (children : NodeList)

/-- The children of a node. -/
inductive NodeList where
  | nil
  | cons (n : Node) (ns : NodeList)
end

/-- The grammar type of a node. -/
def Node.type : Node → String
  | Node.mk t _ _ _ => t

/-- The start byte offset of a node. -/
def Node.startByte : Node → Nat
  | Node.mk _ s _ _ => s

/-- The end byte offset of a node. -/
def Node.endByte : Node → Nat
  | Node.mk _ _ e _ => e

/-- The direct children of a node. -/
def Node.children : Node → NodeList
  | Node.mk _ _ _ cs => cs

/-- View a `NodeList` as an ordinary list. -/
def NodeList.toList : NodeList → List Node
  | NodeList.nil => []
  | NodeList.cons n ns => n :: ns.toList

mutual
/-- Number of nodes in a tree (the number of stack pops its traversal
takes, used as exact fuel for the iterative traversal). -/
def Node.size : Node → Nat
  | Node.mk _ _ _ cs => 1 + NodeList.size cs

/-- Total number of nodes under a list of trees. -/
def NodeList.size : NodeList → Nat
  | NodeList.nil => 0
  | NodeList.cons n ns => Node.size n + NodeList.size ns
end

/-- Total number of nodes under a traversal stack. -/
def stackSize (stack : List Node) : Nat :=
  (stack.map Node.size).sum

/-- `extract_node_text`: `source_bytes[node.start_byte:node.end_byte]`. -/
def extractNodeText (src : List Char) (n : Node) : List Char :=
  (src.drop n.startByte).take (n.endByte - n.startByte)

/-- `get_line_number`: newline count before the offset, plus one. -/
def getLineNumber (src : List Char) (byteOffset : Nat) : Nat :=
  (src.take byteOffset).count '\n' + 1

/-- The per-language allow-list of chunkable node types
(ast_chunking.py lines 76-86). -/
def chunkTypesFor (language : String) : List String :=
  if language = "java" then
    ["method_declaration", "class_declaration", "interface_declaration",
     "enum_declaration"]
  else if language = "python" then
    ["function_definition", "class_definition"]
  else if language = "typescript" then
    ["function_declaration", "method_definition", "class_declaration",
     "interface_declaration", "type_alias_declaration", "enum_declaration"]
  else if language = "javascript" then
    ["function_declaration", "method_definition", "class_declaration"]
  else []

/-- A chunk dict as built by `chunk_with_ast`. -/
structure AChunk where
  content : List Char
  start_line : Nat
  end_line : Nat
  node_type : String
deriving DecidableEq, Repr

/-- The chunk built for a node (ast_chunking.py lines 103-108). -/
def chunkOf (src : List Char) (n : Node) : AChunk :=
  ⟨extractNodeText src n, getLineNumber src n.startByte,
    getLineNumber src n.endByte, n.type⟩

/-- The child chunks gathered for an oversized node (lines 113-123):
direct children whose type is in the allow-list and whose text is at
least 50 characters. -/
def childChunks (src : List Char) (types : List String) (n : Node) :
    List AChunk :=
  n.children.toList.filterMap fun child =>
    if child.type ∈ types then
      if 50 ≤ (extractNodeText src child).length then
        some (chunkOf src child)
      else none
    else none

/-- The chunks contributed when a node is popped from the traversal stack
(lines 94-130): nothing unless the type is allow-listed and the text is at
least 50 characters; an oversized node is replaced by its qualifying child
chunks when any exist, else kept whole. -/
def emitFor (src : List Char) (types : List String) (maxSize : Nat)
    (n : Node) : List AChunk :=
  if n.type ∈ types then
    if 50 ≤ (extractNodeText src n).length then
      if maxSize < (extractNodeText src n).length then
        if (childChunks src types n).isEmpty then [chunkOf src n]
        else childChunks src types n
      else [chunkOf src n]
    else []
  else []

/-- The iterative stack traversal of `chunk_with_ast` (lines 89-133): pop
a node, contribute its chunks, push its children (the Python code pushes
`reversed(children)` onto the array it pops from the back of, which is the
same order as prepending the children here). `fuel` bounds the number of
pops; `stackSize` of the initial stack is exact. -/
def chunkStackF (src : List Char) (types : List String) (maxSize : Nat) :
    Nat → List Node → List AChunk
  | _, [] => []
  | 0, _ :: _ => []
  | fuel + 1, n :: rest =>
    emitFor src types maxSize n
      ++ chunkStackF src types maxSize fuel (n.children.toList ++ rest)

/-- `chunk_with_ast` (the traversal and collection logic; the tree-sitter
parse itself is the input `root`): traverse from the root and return
`None` when no chunks were found so the caller falls back. -/
def chunkWithAst (src : List Char) (language : String) (maxSize : Nat)
    (root : Node) : Option (List AChunk) :=
  let chunks := chunkStackF src (chunkTypesFor language) maxSize
    (Node.size root) [root]
  if chunks.isEmpty then none else some chunks

/-- Membership of a node in the subtree rooted at another node (the nodes
the iterative traversal visits). -/
inductive InTree : Node → Node → Prop where
  | refl (n : Node) : InTree n n
  | child {m c n : Node} :
      c ∈ n.children.toList → InTree m c → InTree m n

/-- The configured chunk size bounds (src/chunking.py lines 35-36,
defaults of `MAX_CHUNK_SIZE` and `MIN_CHUNK_SIZE`). -/
def MAX_CHUNK_SIZE : Nat := 2000

/-- Default of the configured minimum chunk size. -/
def MIN_CHUNK_SIZE : Nat := 100

/- ### Concrete AST scenarios -/

/-- A 5000-character (ASCII) Java source for the oversized-class
scenario. -/
def src5000 : List Char := List.replicate 5000 'x'

/-- First method child, 800 characters. -/
def meth1 : Node := Node.mk "method_declaration" 100 900 NodeList.nil

/-- Second method child, 600 characters. -/
def meth2 : Node := Node.mk "method_declaration" 1000 1600 NodeList.nil

/-- Third method child, 400 characters. -/
def meth3 : Node := Node.mk "method_declaration" 2000 2400 NodeList.nil

/-- A single 5000-character class node with three method children of
800, 600 and 400 characters. -/
def bigClass : Node :=
  Node.mk "class_declaration" 0 5000
    (NodeList.cons meth1 (NodeList.cons meth2
      (NodeList.cons meth3 NodeList.nil)))

/-- The parse root of the oversized-class scenario. -/
def scRoot : Node := Node.mk "program" 0 5000 (NodeList.cons bigClass NodeList.nil)

/-- A 60-character Python source. -/
def src60 : List Char := List.replicate 60 'x'

/-- A 60-character function node (between the hardcoded 50 floor and the
configured minimum of 100). -/
def fn60 : Node := Node.mk "function_definition" 0 60 NodeList.nil

/-- The parse root holding `fn60`. -/
def mod60 : Node := Node.mk "module" 0 60 (NodeList.cons fn60 NodeList.nil)

/-- A 200-character Python source. -/
def src200 : List Char := List.replicate 200 'x'

/-- A 100-character nested function inside `outer200`. -/
def inner200 : Node := Node.mk "function_definition" 50 150 NodeList.nil

/-- A 200-character function containing `inner200`. -/
def outer200 : Node :=
  Node.mk "function_definition" 0 200 (NodeList.cons inner200 NodeList.nil)

/-- The parse root holding `outer200`. -/
def mod200 : Node := Node.mk "module" 0 200 (NodeList.cons outer200 NodeList.nil)

/-- A 2500-character source for the keep-whole case. -/
def srcBig : List Char := List.replicate 2500 'x'

/-- A 2500-character function node with no children: oversized but with
no qualifying child chunks. -/
def bigFn : Node := Node.mk "function_definition" 0 2500 NodeList.nil

/-- The parse root holding `bigFn`. -/
def modBig : Node := Node.mk "module" 0 2500 (NodeList.cons bigFn NodeList.nil)

/- ## Fixed-size terminal chunker
(src/chunking.py, the effective second definition of `chunk_default`,
lines 502-532) -/

/-- Python's `content.split('\n')`: all segments between newlines,
including empty ones; an empty string splits to one empty segment. -/
def splitLines : List Char → List (List Char)
  | [] => [[]]
  | c :: cs =>
    let r := splitLines cs
    if c = '\n' then [] :: r
    else
      match r with
      | [] => [[c]]
      | l :: ls => (c :: l) :: ls

/-- Python's `'\n'.join(lines)`. -/
def joinLines (lines : List (List Char)) : List Char :=
  List.intercalate ['\n'] lines

/-- Normalization of one Python slice index against a list of length `n`:
negative indices count from the end, and the result is clamped to
`[0, n]`. -/
def pyIdx (n : Nat) (i : Int) : Nat :=
  if i < 0 then (max ((n : Int) + i) 0).toNat
  else min i.toNat n

/-- Python's `l[a:b]` (step 1). -/
def pySlice {α : Type} (l : List α) (a b : Int) : List α :=
  (l.take (pyIdx l.length b)).drop (pyIdx l.length a)

/-- A chunk dict as built by the effective `chunk_default`. Line fields
are `Int` because the loop variable `start` is an unbounded Python int
that can go negative under pathological configurations. -/
structure DChunk where
  content : List Char
  start_line : Int
  end_line : Int
deriving DecidableEq, Repr

/-- One iteration of the `while start < len(lines)` body of
`chunk_default` (lines 520-530): compute `end`, slice and append the
chunk, and step `start` (`end - overlap` when not at the end of the file,
else `end`). Returns the new `start` and the extended chunk list. -/
def cdStep (lines : List (List Char)) (chunkSize overlap : Nat)
    (start : Int) (acc : List DChunk) : Int × List DChunk :=
  let endI : Int := min (start + (chunkSize : Int)) ((lines.length : Int))
  (if endI < (lines.length : Int) then endI - (overlap : Int) else endI,
   acc ++ [⟨joinLines (pySlice lines start endI), start + 1, endI⟩])

/-- The `while start < len(lines)` loop of `chunk_default`, with explicit
fuel bounding the number of iterations (the Python loop has none; `none`
means the fuel ran out before the loop exited). -/
def cdLoop (lines : List (List Char)) (chunkSize overlap : Nat) :
    Nat → Int → List DChunk → Option (List DChunk)
  | 0, _, _ => none
  | fuel + 1, start, acc =>
    if start < (lines.length : Int) then
      cdLoop lines chunkSize overlap fuel
        (cdStep lines chunkSize overlap start acc).1
        (cdStep lines chunkSize overlap start acc).2
    else
      some acc

/-- The effective `chunk_default` (chunking.py lines 502-532): a file at
or under the maximum size is one whole-file chunk; otherwise split by line
count into segments of `MAX_CHUNK_SIZE // 10` lines with an overlap of 10
lines. Run with fuel `len(lines) + 1`, which suffices whenever the Python
loop terminates at all. -/
def chunkDefault (maxSize : Nat) (content : List Char) :
    Option (List DChunk) :=
  let lines := splitLines content
  if content.length ≤ maxSize then
    some [⟨content, 1, (lines.length : Int)⟩]
  else
    cdLoop lines (maxSize / 10) 10 (lines.length + 1) 0 []

/-- Termination of the Python `while` loop of `chunk_default` on a given
oversized input: some amount of fuel makes the loop exit. -/
def cdTerminates (maxSize : Nat) (content : List Char) : Prop :=
  ∃ fuel,
    (cdLoop (splitLines content) (maxSize / 10) 10 fuel 0 []).isSome

/-- A 10-character line. -/
def line10 : List Char := ['a', 'b', 'c', 'd', 'e', 'f', 'g', 'h', 'i', 'j']

/-- 25 one-character lines (49 characters): with a configured maximum of
20, `chunk_size = 2 <= overlap = 10` and the loop never exits. -/
def cex25 : List Char := joinLines (List.replicate 25 ['a'])

/-- 20 ten-character lines then 20 one-character lines (259 characters):
with a configured maximum of 200 the loop emits a 39-character trailing
remainder chunk. -/
def cex259 : List Char :=
  joinLines (List.replicate 20 line10 ++ List.replicate 20 ['z'])

/-- 40 ten-character lines (439 characters): with a configured maximum of
200, every emitted 20-line segment has 219 characters, exceeding the
maximum. -/
def cex439 : List Char := joinLines (List.replicate 40 line10)

end CodeRag

namespace CodeRag

/- ## Helper lemmas -/

theorem deletePhase_append (del : String → Except String Nat)
    (l1 l2 : List String) (c : BatchCounters) :
    deletePhase del (l1 ++ l2) c = deletePhase del l2 (deletePhase del l1 c) := by
  induction l1 generalizing c with
  | nil => rfl
  | cons p ps ih =>
    simp only [List.cons_append, deletePhase]
    exact ih _

theorem upsertPhase_append (exist : String → Bool)
    (stat : String → Except String Nat) (add : String → Except String Nat)
    (l1 l2 : List String) (c : BatchCounters) :
    upsertPhase exist stat add (l1 ++ l2) c
      = upsertPhase exist stat add l2 (upsertPhase exist stat add l1 c) := by
  induction l1 generalizing c with
  | nil => rfl
  | cons p ps ih =>
    simp only [List.cons_append, upsertPhase]
    exact ih _

theorem deletePhase_errors (del : String → Except String Nat)
    (ps : List String) (c : BatchCounters) :
    (deletePhase del ps c).errors = c.errors + ps.countP (delFails del) := by
  induction ps generalizing c with
  | nil => simp [deletePhase]
  | cons p ps ih =>
    cases h : del p with
    | ok n =>
      by_cases hn : 0 < n
      all_goals simp [deletePhase, h, hn, ih, delFails, List.countP_cons]
    | error e =>
      simp [deletePhase, h, ih, delFails, List.countP_cons]
      omega

theorem deletePhase_deleted (del : String → Except String Nat)
    (ps : List String) (c : BatchCounters) :
    (deletePhase del ps c).deleted = c.deleted + ps.countP (delHits del) := by
  induction ps generalizing c with
  | nil => simp [deletePhase]
  | cons p ps ih =>
    cases h : del p with
    | ok n =>
      by_cases hn : 0 < n
      · simp [deletePhase, h, hn, ih, delHits, List.countP_cons]
        omega
      · simp [deletePhase, h, hn, ih, delHits, List.countP_cons]
    | error e =>
      simp [deletePhase, h, ih, delHits, List.countP_cons]

theorem upsertPhase_errors (exist : String → Bool)
    (stat : String → Except String Nat) (add : String → Except String Nat)
    (ps : List String) (c : BatchCounters) :
    (upsertPhase exist stat add ps c).errors
      = c.errors + ps.countP (upFails exist stat add) := by
  induction ps generalizing c with
  | nil => simp [upsertPhase]
  | cons p ps ih =>
    by_cases he : exist p = false
    · simp [upsertPhase, he, ih, upFails, List.countP_cons]
    · cases hs : stat p with
      | ok size =>
        by_cases hsz : 1024 * 1024 < size
        · simp [upsertPhase, he, hs, hsz, ih, upFails, List.countP_cons]
        · cases ha : add p with
          | ok chunks =>
            by_cases hc : 0 < chunks
            all_goals
              simp [upsertPhase, he, hs, hsz, ha, hc, ih, upFails,
                List.countP_cons]
          | error e =>
            simp [upsertPhase, he, hs, hsz, ha, ih, upFails, List.countP_cons]
            omega
      | error e =>
        simp [upsertPhase, he, hs, ih, upFails, List.countP_cons]

theorem upsertPhase_indexed (exist : String → Bool)
    (stat : String → Except String Nat) (add : String → Except String Nat)
    (ps : List String) (c : BatchCounters) :
    (upsertPhase exist stat add ps c).indexed
      = c.indexed + ps.countP (upHits exist stat add) := by
  induction ps generalizing c with
  | nil => simp [upsertPhase]
  | cons p ps ih =>
    by_cases he : exist p = false
    · simp [upsertPhase, he, ih, upHits, List.countP_cons]
    · cases hs : stat p with
      | ok size =>
        by_cases hsz : 1024 * 1024 < size
        · simp [upsertPhase, he, hs, hsz, ih, upHits, List.countP_cons]
        · cases ha : add p with
          | ok chunks =>
            by_cases hc : 0 < chunks
            · simp [upsertPhase, he, hs, hsz, ha, hc, ih, upHits,
                List.countP_cons]
              omega
            · simp [upsertPhase, he, hs, hsz, ha, hc, ih, upHits,
                List.countP_cons]
          | error e =>
            simp [upsertPhase, he, hs, hsz, ha, ih, upHits, List.countP_cons]
      | error e =>
        simp [upsertPhase, he, hs, ih, upHits, List.countP_cons]

theorem extract_len_replicate (numChars : Nat) (t : String) (s e : Nat)
    (cs : NodeList) :
    (extractNodeText (List.replicate numChars 'x') (Node.mk t s e cs)).length
      = min (e - s) (numChars - s) := by
  simp [extractNodeText, Node.startByte, Node.endByte]

theorem extract_len5000 (t : String) (s e : Nat) (cs : NodeList) :
    (extractNodeText src5000 (Node.mk t s e cs)).length
      = min (e - s) (5000 - s) := by
  rw [src5000]
  exact extract_len_replicate 5000 t s e cs

theorem extract_len_srcBig (t : String) (s e : Nat) (cs : NodeList) :
    (extractNodeText srcBig (Node.mk t s e cs)).length
      = min (e - s) (2500 - s) := by
  rw [srcBig]
  exact extract_len_replicate 2500 t s e cs

theorem extract_len_src200 (t : String) (s e : Nat) (cs : NodeList) :
    (extractNodeText src200 (Node.mk t s e cs)).length
      = min (e - s) (200 - s) := by
  rw [src200]
  exact extract_len_replicate 200 t s e cs

theorem chunkOf_content (src : List Char) (n : Node) :
    (chunkOf src n).content = extractNodeText src n := rfl

theorem childChunks_min (src : List Char) (types : List String) (n : Node)
    (c : AChunk) (hc : c ∈ childChunks src types n) :
    50 ≤ c.content.length := by
  unfold childChunks at hc
  rcases List.mem_filterMap.mp hc with ⟨child, _, h⟩
  by_cases h1 : child.type ∈ types
  · rw [if_pos h1] at h
    by_cases h2 : 50 ≤ (extractNodeText src child).length
    · rw [if_pos h2] at h
      obtain rfl : chunkOf src child = c := Option.some.inj h
      simpa [chunkOf_content] using h2
    · rw [if_neg h2] at h
      exact absurd h (by simp)
  · rw [if_neg h1] at h
    exact absurd h (by simp)

theorem emitFor_min (src : List Char) (types : List String) (maxSize : Nat)
    (n : Node) (c : AChunk) (hc : c ∈ emitFor src types maxSize n) :
    50 ≤ c.content.length := by
  unfold emitFor at hc
  by_cases h1 : n.type ∈ types
  · rw [if_pos h1] at hc
    by_cases h2 : 50 ≤ (extractNodeText src n).length
    · rw [if_pos h2] at hc
      by_cases h3 : maxSize < (extractNodeText src n).length
      · rw [if_pos h3] at hc
        by_cases h4 : (childChunks src types n).isEmpty
        · rw [if_pos h4] at hc
          obtain rfl : chunkOf src n = c := (List.mem_singleton.mp hc).symm
          simpa [chunkOf_content] using h2
        · rw [if_neg h4] at hc
          exact childChunks_min src types n c hc
      · rw [if_neg h3] at hc
        obtain rfl : chunkOf src n = c := (List.mem_singleton.mp hc).symm
        simpa [chunkOf_content] using h2
    · rw [if_neg h2] at hc
      simp at hc
  · rw [if_neg h1] at hc
    simp at hc

theorem chunkStackF_nil_stack (src : List Char) (types : List String)
    (maxSize fuel : Nat) :
    chunkStackF src types maxSize fuel [] = [] := by
  cases fuel <;> rfl

theorem chunkStackF_succ (src : List Char) (types : List String)
    (maxSize fuel : Nat) (n : Node) (rest : List Node) :
    chunkStackF src types maxSize (fuel + 1) (n :: rest)
      = emitFor src types maxSize n
        ++ chunkStackF src types maxSize fuel (n.children.toList ++ rest) :=
  rfl

theorem chunkStackF_min (src : List Char) (types : List String)
    (maxSize : Nat) :
    ∀ (fuel : Nat) (stack : List Node) (c : AChunk),
      c ∈ chunkStackF src types maxSize fuel stack →
      50 ≤ c.content.length := by
  intro fuel
  induction fuel with
  | zero =>
    intro stack c hc
    cases stack <;> simp [chunkStackF] at hc
  | succ fuel ih =>
    intro stack c hc
    cases stack with
    | nil => simp [chunkStackF_nil_stack] at hc
    | cons n rest =>
      rw [chunkStackF_succ] at hc
      rcases List.mem_append.mp hc with h | h
      · exact emitFor_min src types maxSize n c h
      · exact ih _ c h

theorem nlSize_toList : (ns : NodeList) →
    NodeList.size ns = stackSize ns.toList
  | NodeList.nil => rfl
  | NodeList.cons n ns => by
    rw [NodeList.size, NodeList.toList]
    simp only [stackSize, List.map_cons, List.sum_cons]
    rw [nlSize_toList ns]
    rfl

theorem node_size_children (n : Node) :
    Node.size n = 1 + stackSize n.children.toList := by
  cases n with
  | mk t s e cs =>
    rw [Node.size, Node.children]
    rw [nlSize_toList]

theorem stackSize_cons (n : Node) (rest : List Node) :
    stackSize (n :: rest) = Node.size n + stackSize rest := by
  simp [stackSize]

theorem stackSize_append (a b : List Node) :
    stackSize (a ++ b) = stackSize a + stackSize b := by
  simp [stackSize]

theorem InTree.trans {a b c : Node} (h1 : InTree a b) (h2 : InTree b c) :
    InTree a c := by
  induction h2 with
  | refl => exact h1
  | child hc _ ih => exact InTree.child hc ih

theorem chunkStackF_emits_own (src : List Char) (types : List String)
    (maxSize : Nat) :
    ∀ (fuel : Nat) (stack : List Node) (n : Node),
      stackSize stack ≤ fuel →
      (∃ s ∈ stack, InTree n s) →
      n.type ∈ types →
      50 ≤ (extractNodeText src n).length →
      (maxSize < (extractNodeText src n).length →
        childChunks src types n = []) →
      chunkOf src n ∈ chunkStackF src types maxSize fuel stack := by
  intro fuel
  induction fuel with
  | zero =>
    intro stack n hfuel hmem _ _ _
    rcases hmem with ⟨s, hs, _⟩
    cases stack with
    | nil => simp at hs
    | cons m rest =>
      rw [stackSize_cons, node_size_children] at hfuel
      omega
  | succ fuel ih =>
    intro stack n hfuel hmem ht h50 hkeep
    rcases hmem with ⟨s, hs, hsub⟩
    cases stack with
    | nil => simp at hs
    | cons m rest =>
      rw [chunkStackF_succ]
      have hfuel2 : stackSize (m.children.toList ++ rest) ≤ fuel := by
        rw [stackSize_append]
        rw [stackSize_cons, node_size_children] at hfuel
        omega
      rcases List.mem_cons.mp hs with rfl | hrest
      · cases hsub with
        | refl =>
          refine List.mem_append.mpr (Or.inl ?_)
          unfold emitFor
          rw [if_pos ht, if_pos h50]
          by_cases h3 : maxSize < (extractNodeText src n).length
          · rw [if_pos h3, if_pos (by simp [hkeep h3])]
            exact List.mem_singleton.mpr rfl
          · rw [if_neg h3]
            exact List.mem_singleton.mpr rfl
        | child hc hsubc =>
          refine List.mem_append.mpr (Or.inr ?_)
          exact ih _ n hfuel2
            ⟨_, List.mem_append.mpr (Or.inl hc), hsubc⟩ ht h50 hkeep
      · refine List.mem_append.mpr (Or.inr ?_)
        exact ih _ n hfuel2
          ⟨s, List.mem_append.mpr (Or.inr hrest), hsub⟩ ht h50 hkeep

theorem chunkWithAst_emits_own (src : List Char) (language : String)
    (maxSize : Nat) (root n : Node)
    (hsub : InTree n root)
    (ht : n.type ∈ chunkTypesFor language)
    (h50 : 50 ≤ (extractNodeText src n).length)
    (hkeep : maxSize < (extractNodeText src n).length →
      childChunks src (chunkTypesFor language) n = []) :
    ∃ cs, chunkWithAst src language maxSize root = some cs ∧
      chunkOf src n ∈ cs := by
  have hmem := chunkStackF_emits_own src (chunkTypesFor language) maxSize
    (Node.size root) [root] n
    (by rw [stackSize_cons]; simp [stackSize])
    ⟨root, List.mem_singleton.mpr rfl, hsub⟩ ht h50 hkeep
  have hne : ¬ (chunkStackF src (chunkTypesFor language) maxSize
      (Node.size root) [root]).isEmpty := by
    intro hemp
    rw [List.isEmpty_iff.mp hemp] at hmem
    simp at hmem
  refine ⟨_, ?_, hmem⟩
  simp only [chunkWithAst]
  rw [if_neg hne]

theorem chunkStackF_size_bound (src : List Char) (types : List String)
    (maxSize : Nat) :
    ∀ (fuel : Nat) (stack : List Node) (c : AChunk),
      c ∈ chunkStackF src types maxSize fuel stack →
      c.content.length ≤ maxSize ∨
      (∃ n : Node, (∃ s ∈ stack, InTree n s) ∧ n.type ∈ types ∧
        chunkOf src n = c ∧ maxSize < (extractNodeText src n).length ∧
        childChunks src types n = []) ∨
      (∃ p : Node, (∃ s ∈ stack, InTree p s) ∧ p.type ∈ types ∧
        maxSize < (extractNodeText src p).length ∧
        c ∈ childChunks src types p) := by
  intro fuel
  induction fuel with
  | zero =>
    intro stack c hc
    cases stack <;> simp [chunkStackF] at hc
  | succ fuel ih =>
    intro stack c hc
    cases stack with
    | nil => simp [chunkStackF_nil_stack] at hc
    | cons m rest =>
      rw [chunkStackF_succ] at hc
      rcases List.mem_append.mp hc with h | h
      · unfold emitFor at h
        by_cases h1 : m.type ∈ types
        · rw [if_pos h1] at h
          by_cases h2 : 50 ≤ (extractNodeText src m).length
          · rw [if_pos h2] at h
            by_cases h3 : maxSize < (extractNodeText src m).length
            · rw [if_pos h3] at h
              by_cases h4 : (childChunks src types m).isEmpty
              · rw [if_pos h4] at h
                obtain rfl : chunkOf src m = c :=
                  (List.mem_singleton.mp h).symm
                exact Or.inr (Or.inl ⟨m,
                  ⟨m, List.mem_cons_self m rest, InTree.refl m⟩, h1, rfl,
                  h3, List.isEmpty_iff.mp h4⟩)
              · rw [if_neg h4] at h
                exact Or.inr (Or.inr ⟨m,
                  ⟨m, List.mem_cons_self m rest, InTree.refl m⟩, h1, h3, h⟩)
            · rw [if_neg h3] at h
              obtain rfl : chunkOf src m = c :=
                (List.mem_singleton.mp h).symm
              left
              rw [chunkOf_content]
              omega
          · rw [if_neg h2] at h
            simp at h
        · rw [if_neg h1] at h
          simp at h
      · rcases ih _ c h with hle | ⟨n, ⟨s, hs, hsub⟩, rest1⟩
          | ⟨p, ⟨s, hs, hsub⟩, rest2⟩
        · exact Or.inl hle
        · refine Or.inr (Or.inl ⟨n, ?_, rest1⟩)
          rcases List.mem_append.mp hs with hch | hr
          · exact ⟨m, List.mem_cons_self m rest,
              InTree.trans hsub (InTree.child hch (InTree.refl s))⟩
          · exact ⟨s, List.mem_cons_of_mem m hr, hsub⟩
        · refine Or.inr (Or.inr ⟨p, ?_, rest2⟩)
          rcases List.mem_append.mp hs with hch | hr
          · exact ⟨m, List.mem_cons_self m rest,
              InTree.trans hsub (InTree.child hch (InTree.refl s))⟩
          · exact ⟨s, List.mem_cons_of_mem m hr, hsub⟩

theorem splitLines_ne_nil (content : List Char) :
    splitLines content ≠ [] := by
  cases content with
  | nil => simp [splitLines]
  | cons c cs =>
    simp only [splitLines]
    by_cases h : c = '\n'
    · simp [h]
    · rw [if_neg h]
      rcases h2 : splitLines cs with _ | ⟨l, ls⟩ <;> simp

theorem cdLoop_succ (lines : List (List Char)) (cs ov fuel : Nat)
    (start : Int) (acc : List DChunk) :
    cdLoop lines cs ov (fuel + 1) start acc
      = if start < (lines.length : Int) then
          cdLoop lines cs ov fuel (cdStep lines cs ov start acc).1
            (cdStep lines cs ov start acc).2
        else some acc := rfl

theorem cdStep_fst (lines : List (List Char)) (cs ov : Nat) (start : Int)
    (acc : List DChunk) :
    (cdStep lines cs ov start acc).1
      = if min (start + (cs : Int)) ((lines.length : Int))
            < (lines.length : Int)
        then min (start + (cs : Int)) ((lines.length : Int)) - (ov : Int)
        else min (start + (cs : Int)) ((lines.length : Int)) := rfl

theorem cdStep_snd_length (lines : List (List Char)) (cs ov : Nat)
    (start : Int) (acc : List DChunk) :
    (cdStep lines cs ov start acc).2.length = acc.length + 1 := by
  simp [cdStep]

theorem cdStep_snd_getLast (lines : List (List Char)) (cs ov : Nat)
    (start : Int) (acc : List DChunk) :
    (cdStep lines cs ov start acc).2.getLast?
      = some ⟨joinLines (pySlice lines start
          (min (start + (cs : Int)) ((lines.length : Int)))), start + 1,
          min (start + (cs : Int)) ((lines.length : Int))⟩ := by
  simp [cdStep]

theorem cdLoop_stuck_cex25 :
    ∀ (fuel : Nat) (start : Int) (acc : List DChunk), start ≤ 0 →
      cdLoop (splitLines cex25) 2 10 fuel start acc = none := by
  have hlen : (splitLines cex25).length = 25 := by decide
  intro fuel
  induction fuel with
  | zero =>
    intro start acc h
    rfl
  | succ fuel ih =>
    intro start acc h
    rw [cdLoop_succ, if_pos (by rw [hlen]; omega)]
    apply ih
    rw [cdStep_fst, hlen]
    have hmin : min (start + ((2 : Nat) : Int)) (((25 : Nat) : Int))
        = start + 2 := by omega
    rw [hmin, if_pos (by omega)]
    omega

theorem cdLoop_terminates (lines : List (List Char)) (cs ov : Nat)
    (hcs : ov < cs) :
    ∀ (fuel : Nat) (start : Int) (acc : List DChunk),
      0 ≤ start → (lines.length : Int) ≤ start + (fuel : Int) →
      ∃ res, cdLoop lines cs ov (fuel + 1) start acc = some res ∧
        acc.length ≤ res.length ∧
        (start < (lines.length : Int) → acc.length < res.length) := by
  intro fuel
  induction fuel with
  | zero =>
    intro start acc h0 hb
    rw [cdLoop_succ, if_neg (by push_cast at hb ⊢; omega)]
    exact ⟨acc, rfl, le_refl _, fun h => absurd h (by push_cast at hb ⊢; omega)⟩
  | succ fuel ih =>
    intro start acc h0 hb
    by_cases hlt : start < (lines.length : Int)
    · rw [cdLoop_succ, if_pos hlt]
      by_cases hend : min (start + (cs : Int)) ((lines.length : Int))
          < (lines.length : Int)
      · obtain ⟨res, hres, hl1, _⟩ := ih (cdStep lines cs ov start acc).1
          (cdStep lines cs ov start acc).2
          (by rw [cdStep_fst, if_pos hend]; omega)
          (by rw [cdStep_fst, if_pos hend]; push_cast at hb ⊢; omega)
        rw [cdStep_snd_length] at hl1
        exact ⟨res, hres, by omega, fun _ => by omega⟩
      · obtain ⟨res, hres, hl1, _⟩ := ih (cdStep lines cs ov start acc).1
          (cdStep lines cs ov start acc).2
          (by rw [cdStep_fst, if_neg hend]; omega)
          (by rw [cdStep_fst, if_neg hend]; push_cast at hb ⊢; omega)
        rw [cdStep_snd_length] at hl1
        exact ⟨res, hres, by omega, fun _ => by omega⟩
    · rw [cdLoop_succ, if_neg hlt]
      exact ⟨acc, rfl, le_refl _, fun h => absurd h hlt⟩

theorem cdLoop_last (lines : List (List Char)) (cs ov : Nat)
    (hcs : ov < cs) :
    ∀ (fuel : Nat) (start : Int) (acc : List DChunk),
      0 ≤ start → (lines.length : Int) ≤ start + (fuel : Int) →
      start < (lines.length : Int) →
      ∃ res, cdLoop lines cs ov (fuel + 1) start acc = some res ∧
        ∃ c : DChunk, res.getLast? = some c ∧
          c.end_line = (lines.length : Int) := by
  intro fuel
  induction fuel with
  | zero =>
    intro start acc h0 hb hlt
    exfalso
    push_cast at hb hlt
    omega
  | succ fuel ih =>
    intro start acc h0 hb hlt
    rw [cdLoop_succ, if_pos hlt]
    by_cases hend : min (start + (cs : Int)) ((lines.length : Int))
        < (lines.length : Int)
    · exact ih (cdStep lines cs ov start acc).1
        (cdStep lines cs ov start acc).2
        (by rw [cdStep_fst, if_pos hend]; omega)
        (by rw [cdStep_fst, if_pos hend]; push_cast at hb ⊢; omega)
        (by rw [cdStep_fst, if_pos hend]; omega)
    · refine ⟨(cdStep lines cs ov start acc).2, ?_, ?_⟩
      · rw [cdLoop_succ, if_neg (by rw [cdStep_fst, if_neg hend]; omega)]
      · rw [cdStep_snd_getLast]
        refine ⟨_, rfl, ?_⟩
        show min (start + (cs : Int)) ((lines.length : Int))
          = (lines.length : Int)
        omega

/- ## Claim theorems -/

/-- C1: the ledger update implements exactly the three-case merge rule
of `_drain_queue`, and consequently any event sequence on a path ending in
`deleted` leaves the path `deleted`, while `deleted` followed by a
non-delete action (no intervening batch) leaves it `modified`. -/
theorem drain_queue_merge_rule :
    (∀ (L : Ledger) (p : String),
      drainStep L (p, FAction.deleted) p = some FAction.deleted) ∧
    (∀ (L : Ledger) (p : String) (a : FAction), a ≠ FAction.deleted →
      L p = some FAction.deleted →
      drainStep L (p, a) p = some FAction.modified) ∧
    (∀ (L : Ledger) (p : String) (a : FAction), a ≠ FAction.deleted →
      L p ≠ some FAction.deleted →
      drainStep L (p, a) p = some a) ∧
    (∀ (L : Ledger) (evs : List (String × FAction)) (p : String),
      drainAll L (evs ++ [(p, FAction.deleted)]) p = some FAction.deleted) ∧
    (∀ (L : Ledger) (p : String) (a : FAction), a ≠ FAction.deleted →
      drainAll L [(p, FAction.deleted), (p, a)] p = some FAction.modified) := by
  refine ⟨?_, ?_, ?_, ?_, ?_⟩
  · intro L p
    simp [drainStep, ledgerSet]
  · intro L p a ha hL
    simp [drainStep, ledgerSet, ha, hL]
  · intro L p a ha hL
    simp [drainStep, ledgerSet, ha, hL]
  · intro L evs p
    have : drainAll L (evs ++ [(p, FAction.deleted)])
        = drainStep (drainAll L evs) (p, FAction.deleted) := by
      simp [drainAll, List.foldl_append]
    rw [this]
    simp [drainStep, ledgerSet]
  · intro L p a ha
    simp [drainAll, drainStep, ledgerSet, ha]

/-- Witness for C1 at concrete inputs: an empty ledger, path "a.java",
the burst create, modify, delete ends `deleted`; delete then create ends
`modified`; a plain modify on a fresh path stores `modified`. -/
theorem drain_queue_merge_rule_witness :
    drainAll (fun _ => none)
      [("a.java", FAction.created), ("a.java", FAction.modified),
       ("a.java", FAction.deleted)] "a.java" = some FAction.deleted ∧
    drainAll (fun _ => none)
      [("a.java", FAction.deleted), ("a.java", FAction.created)] "a.java"
      = some FAction.modified ∧
    drainStep (fun _ => none) ("a.java", FAction.modified) "a.java"
      = some FAction.modified := by
  refine ⟨?_, ?_, ?_⟩
  · exact drain_queue_merge_rule.2.2.2.1 (fun _ => none)
      [("a.java", FAction.created), ("a.java", FAction.modified)] "a.java"
  · exact drain_queue_merge_rule.2.2.2.2 (fun _ => none) "a.java"
      FAction.created (by decide)
  · exact drain_queue_merge_rule.2.2.1 (fun _ => none) "a.java"
      FAction.modified (by decide) (by simp)

/-- C8: at most one batch executes per project at any time. In every
reachable scheduler state the number of in-flight batches is at most one
and equals one exactly while the `_processing` flag is set (the flag is set
by `batch_start` for the whole duration of a batch and cleared by
`batch_finish`); moreover, when the debounce timer fires while a batch is
in flight, the scheduler merely re-arms the debounce-interval timer,
leaving every other component of the state (in particular `inFlight`)
unchanged. -/
theorem single_batch_in_flight :
    (∀ s : WatcherState, WatcherReachable s →
      s.inFlight ≤ 1 ∧ (s.processing = true ↔ s.inFlight = 1)) ∧
    (∀ s : WatcherState, s.timer ≠ none → s.stopped = false →
      s.gitActive = false → s.processing = true →
      WatcherStep s { s with timer := some TimerKind.debounce }) := by
  constructor
  · have key : ∀ t : WatcherState, WatcherReachable t →
        t.inFlight = (if t.processing then 1 else 0) := by
      intro t ht
      induction ht with
      | refl => rfl
      | tail hab hbc ih =>
        cases hbc with
        | event_arrive => simpa using ih
        | git_set b => simpa using ih
        | stop_watcher => simpa using ih
        | fire_stopped h1 h2 => simpa using ih
        | fire_git h1 h2 h3 => simpa using ih
        | fire_busy h1 h2 h3 h4 => simpa using ih
        | fire_empty h1 h2 h3 h4 h5 => simpa using ih
        | batch_start overflow h1 h2 h3 h4 h5 h6 =>
          rw [h4] at ih
          simp at ih
          simp [ih]
        | batch_finish h1 =>
          rw [h1] at ih
          simp at ih
          simp [ih]
    intro s hs
    have h := key s hs
    constructor
    · rw [h]
      split <;> omega
    · rw [h]
      cases hp : s.processing <;> simp
  · intro s h1 h2 h3 h4
    exact WatcherStep.fire_busy s h1 h2 h3 h4

/-- Witness for C8: the initial watcher state is reachable and satisfies
the in-flight bound, and a concrete mid-batch state with the timer armed
takes the reschedule transition that changes only the timer. -/
theorem single_batch_in_flight_witness :
    (initialWatcherState.inFlight ≤ 1 ∧
      (initialWatcherState.processing = true ↔
        initialWatcherState.inFlight = 1)) ∧
    WatcherStep
      (⟨true, 1, false, false, 0, some TimerKind.debounce⟩ : WatcherState)
      (⟨true, 1, false, false, 0, some TimerKind.debounce⟩ : WatcherState) := by
  constructor
  · exact single_batch_in_flight.1 initialWatcherState
      Relation.ReflTransGen.refl
  · exact single_batch_in_flight.2
      ⟨true, 1, false, false, 0, some TimerKind.debounce⟩
      (by decide) rfl rfl rfl

/-- C9: a per-path exception during either phase of `_process_batch` is
caught, counted as an error and does not abort the rest of the batch. The
append laws show the paths after any (possibly failing) segment are
processed exactly as they would be on their own; the counter laws show the
error counter counts exactly the failing paths while every non-failing
path still contributes its own outcome (deleted/indexed) independently of
failures elsewhere; and `bumpStats` adds the batch's errors to the
lifetime counters. -/
theorem process_batch_per_path_isolation :
    (∀ (del : String → Except String Nat) (l1 l2 : List String)
        (c : BatchCounters),
      deletePhase del (l1 ++ l2) c
        = deletePhase del l2 (deletePhase del l1 c)) ∧
    (∀ (exist : String → Bool) (stat add : String → Except String Nat)
        (l1 l2 : List String) (c : BatchCounters),
      upsertPhase exist stat add (l1 ++ l2) c
        = upsertPhase exist stat add l2 (upsertPhase exist stat add l1 c)) ∧
    (∀ (del : String → Except String Nat) (ps : List String)
        (c : BatchCounters),
      (deletePhase del ps c).errors = c.errors + ps.countP (delFails del)) ∧
    (∀ (del : String → Except String Nat) (ps : List String)
        (c : BatchCounters),
      (deletePhase del ps c).deleted = c.deleted + ps.countP (delHits del)) ∧
    (∀ (exist : String → Bool) (stat add : String → Except String Nat)
        (ps : List String) (c : BatchCounters),
      (upsertPhase exist stat add ps c).errors
        = c.errors + ps.countP (upFails exist stat add)) ∧
    (∀ (exist : String → Bool) (stat add : String → Except String Nat)
        (ps : List String) (c : BatchCounters),
      (upsertPhase exist stat add ps c).indexed
        = c.indexed + ps.countP (upHits exist stat add)) ∧
    (∀ (stats : WatcherStats) (r : BatchCounters),
      (bumpStats stats r).errors = stats.errors + r.errors) :=
  ⟨deletePhase_append, upsertPhase_append, deletePhase_errors,
    deletePhase_deleted, upsertPhase_errors, upsertPhase_indexed,
    fun _ _ => rfl⟩

/-- Concrete evaluation of the oversized-class scenario: the single
5000-character class with three 800/600/400-character method children
yields the three method chunks twice each (once as child chunks of the
oversized class, once again when the traversal descends into the
children), and never the class chunk itself. -/
theorem chunkWithAst_scRoot :
    chunkWithAst src5000 "java" MAX_CHUNK_SIZE scRoot
      = some [chunkOf src5000 meth1, chunkOf src5000 meth2,
              chunkOf src5000 meth3, chunkOf src5000 meth1,
              chunkOf src5000 meth2, chunkOf src5000 meth3] := by
  have hsz : Node.size scRoot = 5 := rfl
  simp only [chunkWithAst, hsz, MAX_CHUNK_SIZE]
  simp [chunkStackF, emitFor, childChunks, chunkTypesFor, extract_len5000,
    scRoot, bigClass, meth1, meth2, meth3, Node.type, Node.children,
    NodeList.toList]

/-- Concrete evaluation of the keep-whole case: a 2500-character function
with no children is oversized but has no qualifying child chunks, so it is
kept whole. -/
theorem chunkWithAst_modBig :
    chunkWithAst srcBig "python" MAX_CHUNK_SIZE modBig
      = some [chunkOf srcBig bigFn] := by
  have hsz : Node.size modBig = 2 := rfl
  simp only [chunkWithAst, hsz, MAX_CHUNK_SIZE]
  simp [chunkStackF, emitFor, childChunks, chunkTypesFor, extract_len_srcBig,
    modBig, bigFn, Node.type, Node.children, NodeList.toList]

/-- C3 counterexample: in the oversized-class scenario the AST tier emits
six chunk entries (each method twice), not exactly three method chunks as
claimed — although indeed no 5000-character class chunk appears. -/
theorem ast_oversized_resplit_counterexample :
    ∃ cs, chunkWithAst src5000 "java" MAX_CHUNK_SIZE scRoot = some cs ∧
      cs.length = 6 ∧ ¬ cs.length = 3 := by
  exact ⟨_, chunkWithAst_scRoot, by simp, by simp⟩

/-- C3 (amended): for the oversized-class scenario the class node's own
chunk is not emitted and its three qualifying method children are emitted
as individual chunks — but the traversal also descends into those children
and emits each of them a second time, so the scenario yields the three
method chunks twice each (contents of length 800, 600, 400, 800, 600, 400
and no 5000-character chunk). In general, when an allow-listed node of at
least 50 characters has no qualifying child chunks, it is emitted whole
even when oversized. -/
theorem ast_oversized_resplit :
    (chunkWithAst src5000 "java" MAX_CHUNK_SIZE scRoot
      = some [chunkOf src5000 meth1, chunkOf src5000 meth2,
              chunkOf src5000 meth3, chunkOf src5000 meth1,
              chunkOf src5000 meth2, chunkOf src5000 meth3]) ∧
    (((chunkWithAst src5000 "java" MAX_CHUNK_SIZE scRoot).getD []).map
        (fun c => c.content.length) = [800, 600, 400, 800, 600, 400]) ∧
    (∀ c ∈ (chunkWithAst src5000 "java" MAX_CHUNK_SIZE scRoot).getD [],
      ¬ c.content.length = 5000) ∧
    (∀ (src : List Char) (language : String) (maxSize : Nat)
        (root n : Node) (cs : List AChunk),
      chunkWithAst src language maxSize root = some cs →
      InTree n root → n.type ∈ chunkTypesFor language →
      50 ≤ (extractNodeText src n).length →
      childChunks src (chunkTypesFor language) n = [] →
      chunkOf src n ∈ cs) := by
  have hmap : ((chunkWithAst src5000 "java" MAX_CHUNK_SIZE scRoot).getD
      []).map (fun c => c.content.length)
      = [800, 600, 400, 800, 600, 400] := by
    rw [chunkWithAst_scRoot]
    simp [chunkOf_content, meth1, meth2, meth3, extract_len5000]
  refine ⟨chunkWithAst_scRoot, hmap, ?_, ?_⟩
  · intro c hc h5000
    have hmem : c.content.length ∈
        ((chunkWithAst src5000 "java" MAX_CHUNK_SIZE scRoot).getD []).map
          (fun c => c.content.length) := List.mem_map_of_mem _ hc
    rw [hmap, h5000] at hmem
    simp at hmem
  · intro src language maxSize root n cs hcs hsub ht h50 hcc
    obtain ⟨cs0, hcs0, hmem⟩ := chunkWithAst_emits_own src language maxSize
      root n hsub ht h50 (fun _ => hcc)
    rw [hcs] at hcs0
    obtain rfl := Option.some.inj hcs0
    exact hmem

/-- Witness for C3: the keep-whole clause applied at the concrete
2500-character childless function, which is emitted whole. -/
theorem ast_oversized_resplit_witness :
    chunkOf srcBig bigFn ∈
      (chunkWithAst srcBig "python" MAX_CHUNK_SIZE modBig).getD [] := by
  have h := ast_oversized_resplit.2.2.2 srcBig "python" MAX_CHUNK_SIZE
    modBig bigFn [chunkOf srcBig bigFn] chunkWithAst_modBig
    (InTree.child (List.mem_singleton.mpr rfl) (InTree.refl bigFn))
    (by decide)
    (by simp [bigFn, extract_len_srcBig])
    (by simp [childChunks, bigFn, Node.children, NodeList.toList])
  rw [chunkWithAst_modBig]
  exact h

/-- C4 counterexample: the AST tier's floor is the hardcoded 50, not the
configured `MIN_CHUNK_SIZE` (default 100): a 60-character function node is
emitted even though 60 is below the configured minimum. -/
theorem ast_min_chunk_counterexample :
    ∃ cs, chunkWithAst src60 "python" MAX_CHUNK_SIZE mod60 = some cs ∧
      ∃ c ∈ cs, c.content.length < MIN_CHUNK_SIZE := by
  exact ⟨[chunkOf src60 fn60], by decide, chunkOf src60 fn60,
    List.mem_singleton.mpr rfl, by decide⟩

/-- C4 (amended): the AST tier discards collected chunks below 50
characters — the hardcoded floor in `chunk_with_ast`, not the configured
`MIN_CHUNK_SIZE` — so every chunk it emits has content length at least
50. -/
theorem ast_min_chunk_floor (src : List Char) (language : String)
    (maxSize : Nat) (root : Node) (cs : List AChunk) (c : AChunk)
    (hcs : chunkWithAst src language maxSize root = some cs) (hc : c ∈ cs) :
    50 ≤ c.content.length := by
  simp only [chunkWithAst] at hcs
  by_cases h : (chunkStackF src (chunkTypesFor language) maxSize
      (Node.size root) [root]).isEmpty
  · rw [if_pos h] at hcs
    cases hcs
  · rw [if_neg h] at hcs
    obtain rfl := Option.some.inj hcs
    exact chunkStackF_min src (chunkTypesFor language) maxSize
      (Node.size root) [root] c hc

/-- Witness for C4 (amended): the 60-character function chunk satisfies
the 50-character floor. -/
theorem ast_min_chunk_floor_witness :
    50 ≤ (chunkOf src60 fn60).content.length := by
  exact ast_min_chunk_floor src60 "python" MAX_CHUNK_SIZE mod60
    [chunkOf src60 fn60] (chunkOf src60 fn60) (by decide)
    (List.mem_singleton.mpr rfl)

/-- C10: the traversal descends into every collected node, bounded or
not, so an allow-listed node of 50..max characters anywhere in the tree is
emitted as its own chunk; in particular an enclosing within-max collected
node and an allow-listed descendant of it are both emitted, so emitted
chunks need not be pairwise disjoint. (The descendant's size bound follows
from span nesting in a real parse and is taken as a hypothesis here.) -/
theorem ast_descends_within_max (src : List Char) (language : String)
    (maxSize : Nat) (root n d : Node)
    (hn : InTree n root) (hnT : n.type ∈ chunkTypesFor language)
    (hn50 : 50 ≤ (extractNodeText src n).length)
    (hnMax : (extractNodeText src n).length ≤ maxSize)
    (hd : InTree d n) (hdT : d.type ∈ chunkTypesFor language)
    (hd50 : 50 ≤ (extractNodeText src d).length)
    (hdMax : (extractNodeText src d).length ≤ maxSize) :
    ∃ cs, chunkWithAst src language maxSize root = some cs ∧
      chunkOf src n ∈ cs ∧ chunkOf src d ∈ cs := by
  obtain ⟨cs1, h1, hm1⟩ := chunkWithAst_emits_own src language maxSize root
    n hn hnT hn50 (fun h => absurd h (by omega))
  obtain ⟨cs2, h2, hm2⟩ := chunkWithAst_emits_own src language maxSize root
    d (InTree.trans hd hn) hdT hd50 (fun h => absurd h (by omega))
  rw [h1] at h2
  obtain rfl := Option.some.inj h2
  exact ⟨cs1, h1, hm1, hm2⟩

/-- Witness for C10: a 200-character function containing a 100-character
nested function — both inside the maximum — yields both chunks, whose byte
spans overlap. -/
theorem ast_descends_within_max_witness :
    ∃ cs, chunkWithAst src200 "python" MAX_CHUNK_SIZE mod200 = some cs ∧
      chunkOf src200 outer200 ∈ cs ∧ chunkOf src200 inner200 ∈ cs := by
  exact ast_descends_within_max src200 "python" MAX_CHUNK_SIZE mod200
    outer200 inner200
    (InTree.child (List.mem_singleton.mpr rfl) (InTree.refl outer200))
    (by decide)
    (by simp [outer200, extract_len_src200])
    (by simp [outer200, extract_len_src200, MAX_CHUNK_SIZE])
    (InTree.child (List.mem_singleton.mpr rfl) (InTree.refl inner200))
    (by decide)
    (by simp [inner200, extract_len_src200])
    (by simp [inner200, extract_len_src200, MAX_CHUNK_SIZE])

set_option maxRecDepth 8000 in
/-- C5 counterexample: the fixed-size terminal tier does not enforce the
maximum: with a configured maximum of 200, a 40-line file of 10-character
lines (439 characters) is split into three 20-line segments of 219
characters each — every emitted chunk exceeds the maximum, and each is a
divisible 20-line slice of the file, not a whole indivisible semantic
unit. -/
theorem chunk_size_bound_counterexample :
    (chunkDefault 200 cex439).map
        (List.map fun c => (c.content.length, c.start_line, c.end_line))
      = some [(219, 1, 20), (219, 11, 30), (219, 21, 40)] ∧
    (200 : Nat) < 219 ∧ (splitLines cex439).length = 40 := by
  refine ⟨by decide, by decide, by decide⟩

/-- C5 (amended): in the AST tier, every emitted chunk has content length
at most the maximum, or is the chunk of an allow-listed node kept whole
because none of its direct children qualified, or is a qualifying direct
child of an oversized node (child chunks are appended without a size
check). The regex and fixed-size tiers do not enforce the maximum at
all. -/
theorem ast_chunk_size_bound (src : List Char) (language : String)
    (maxSize : Nat) (root : Node) (cs : List AChunk) (c : AChunk)
    (hcs : chunkWithAst src language maxSize root = some cs) (hc : c ∈ cs) :
    c.content.length ≤ maxSize ∨
    (∃ n : Node, InTree n root ∧ n.type ∈ chunkTypesFor language ∧
      chunkOf src n = c ∧ maxSize < (extractNodeText src n).length ∧
      childChunks src (chunkTypesFor language) n = []) ∨
    (∃ p : Node, InTree p root ∧ p.type ∈ chunkTypesFor language ∧
      maxSize < (extractNodeText src p).length ∧
      c ∈ childChunks src (chunkTypesFor language) p) := by
  simp only [chunkWithAst] at hcs
  by_cases h : (chunkStackF src (chunkTypesFor language) maxSize
      (Node.size root) [root]).isEmpty
  · rw [if_pos h] at hcs
    cases hcs
  · rw [if_neg h] at hcs
    obtain rfl := Option.some.inj hcs
    rcases chunkStackF_size_bound src (chunkTypesFor language) maxSize
        (Node.size root) [root] c hc with hle
      | ⟨n, ⟨s, hs, hsub⟩, h1, h2, h3, h4⟩ | ⟨p, ⟨s, hs, hsub⟩, h1, h2, h3⟩
    · exact Or.inl hle
    · obtain rfl := List.mem_singleton.mp hs
      exact Or.inr (Or.inl ⟨n, hsub, h1, h2, h3, h4⟩)
    · obtain rfl := List.mem_singleton.mp hs
      exact Or.inr (Or.inr ⟨p, hsub, h1, h2, h3⟩)

/-- Witness for C5 (amended): the 2500-character childless function chunk
falls under the keep-whole disjunct. -/
theorem ast_chunk_size_bound_witness :
    (chunkOf srcBig bigFn).content.length ≤ MAX_CHUNK_SIZE ∨
    (∃ n : Node, InTree n modBig ∧ n.type ∈ chunkTypesFor "python" ∧
      chunkOf srcBig n = chunkOf srcBig bigFn ∧
      MAX_CHUNK_SIZE < (extractNodeText srcBig n).length ∧
      childChunks srcBig (chunkTypesFor "python") n = []) ∨
    (∃ p : Node, InTree p modBig ∧ p.type ∈ chunkTypesFor "python" ∧
      MAX_CHUNK_SIZE < (extractNodeText srcBig p).length ∧
      chunkOf srcBig bigFn ∈ childChunks srcBig (chunkTypesFor "python") p)
    := by
  exact ast_chunk_size_bound srcBig "python" MAX_CHUNK_SIZE modBig
    [chunkOf srcBig bigFn] (chunkOf srcBig bigFn) chunkWithAst_modBig
    (List.mem_singleton.mpr rfl)

set_option maxRecDepth 8000 in
/-- C6 counterexample: with a configured maximum of 200, a 259-character
file of 40 lines ends in a 39-character trailing remainder chunk — below
the configured minimum of 100 — which is emitted as the third chunk of a
three-chunk result, not dropped. -/
theorem chunk_default_drop_counterexample :
    (200 : Nat) < cex259.length ∧
    (chunkDefault 200 cex259).map
        (List.map fun c => (c.content.length, c.start_line, c.end_line))
      = some [(219, 1, 20), (129, 11, 30), (39, 21, 40)] ∧
    (39 : Nat) < MIN_CHUNK_SIZE := by
  refine ⟨by decide, by decide, by decide⟩

/-- C6 (amended): the effective `chunk_default` never drops the trailing
line-count remainder: for every file longer than the maximum (with any
configured maximum of at least 110, in particular the default 2000), the
last emitted chunk always extends to the file's last line, regardless of
its size. The drop-below-minimum behaviour exists only in the shadowed
first definition of `chunk_default` (chunking.py lines 118-172), which the
second definition replaces. -/
theorem chunk_default_keeps_remainder (maxSize : Nat) (content : List Char)
    (hmax : 110 ≤ maxSize) (hlarge : maxSize < content.length) :
    ∃ res, chunkDefault maxSize content = some res ∧
      ∃ c : DChunk, res.getLast? = some c ∧
        c.end_line = ((splitLines content).length : Int) := by
  have hcs : 10 < maxSize / 10 := by omega
  have hpos : 0 < (splitLines content).length :=
    List.length_pos.mpr (splitLines_ne_nil content)
  have h := cdLoop_last (splitLines content) (maxSize / 10) 10 hcs
    (splitLines content).length 0 [] (by omega)
    (by omega) (by omega)
  simp only [chunkDefault]
  rw [if_neg (by omega)]
  exact h

set_option maxRecDepth 8000 in
/-- Witness for C6 (amended): the 259-character file at maximum 200 keeps
its 39-character remainder, its last chunk ending at line 40. -/
theorem chunk_default_keeps_remainder_witness :
    ∃ res, chunkDefault 200 cex259 = some res ∧
      ∃ c : DChunk, res.getLast? = some c ∧
        c.end_line = ((splitLines cex259).length : Int) := by
  exact chunk_default_keeps_remainder 200 cex259 (by omega) (by decide)

/-- C7 counterexample: the fixed-size chunker does not terminate for every
configuration: with a configured maximum of 20 (so `chunk_size = 2` is at
most the overlap of 10), a 49-character file of 25 one-character lines
makes `start` step backwards forever (`start = end - overlap` with
`end = start + 2`), so no amount of fuel lets the loop exit. -/
theorem chunk_default_termination_counterexample :
    (20 : Nat) < cex25.length ∧ ¬ cdTerminates 20 cex25 ∧
      chunkDefault 20 cex25 = none := by
  refine ⟨by decide, ?_, ?_⟩
  · rintro ⟨fuel, hf⟩
    rw [show (20 : Nat) / 10 = 2 from rfl] at hf
    rw [cdLoop_stuck_cex25 fuel 0 [] (by omega)] at hf
    simp at hf
  · simp only [chunkDefault]
    rw [if_neg (by decide), show (20 : Nat) / 10 = 2 from rfl]
    exact cdLoop_stuck_cex25 _ 0 [] (by omega)

/-- C7 (amended): for every configuration whose maximum is at least 110
(so that the derived lines-per-segment `maxSize / 10` exceeds the 10-line
overlap; the default 2000 qualifies), the fixed-size chunker terminates on
every content and returns at least one chunk, and every content at or
under the maximum — including an empty file — becomes exactly one
whole-file chunk with `start_line` 1 even when below the minimum size. -/
theorem chunk_default_total (maxSize : Nat) (content : List Char)
    (hmax : 110 ≤ maxSize) :
    (∃ res, chunkDefault maxSize content = some res ∧ 1 ≤ res.length) ∧
    (content.length ≤ maxSize →
      chunkDefault maxSize content
        = some [⟨content, 1, ((splitLines content).length : Int)⟩]) ∧
    (maxSize < content.length → cdTerminates maxSize content) := by
  by_cases hsmall : content.length ≤ maxSize
  · refine ⟨⟨[⟨content, 1, ((splitLines content).length : Int)⟩],
      by simp [chunkDefault, hsmall], by simp⟩,
      fun _ => by simp [chunkDefault, hsmall],
      fun h => absurd h (by omega)⟩
  · have hcs : 10 < maxSize / 10 := by omega
    have hpos : 0 < (splitLines content).length :=
      List.length_pos.mpr (splitLines_ne_nil content)
    obtain ⟨res, hres, _, hlt⟩ := cdLoop_terminates (splitLines content)
      (maxSize / 10) 10 hcs (splitLines content).length 0 []
      (by omega) (by omega)
    have hout : chunkDefault maxSize content = some res := by
      simp only [chunkDefault]
      rw [if_neg hsmall]
      exact hres
    refine ⟨⟨res, hout, ?_⟩, fun h => absurd h hsmall, fun _ => ?_⟩
    · have := hlt (by omega)
      simpa using this
    · exact ⟨(splitLines content).length + 1, by rw [hres]; rfl⟩

/-- Witness for C7 (amended): with the default maximum of 2000 an empty
file yields exactly one whole-file chunk with `start_line` 1. -/
theorem chunk_default_total_witness :
    (∃ res, chunkDefault MAX_CHUNK_SIZE [] = some res ∧ 1 ≤ res.length) ∧
    chunkDefault MAX_CHUNK_SIZE []
      = some [⟨[], 1, ((splitLines ([] : List Char)).length : Int)⟩] := by
  have h := chunk_default_total MAX_CHUNK_SIZE [] (by decide)
  exact ⟨h.1, h.2.1 (by decide)⟩

/-- C2: when the snapshot has `M > cap` entries, one batch cycle processes
exactly the first `cap` entries in iteration order and re-queues exactly
`M - cap` entries into the live ledger; nothing is lost. -/
theorem process_batch_cap (cap : Nat) (snapshot : List (String × FAction))
    (h : cap < snapshot.length) :
    (capBatch cap snapshot).processed = snapshot.take cap ∧
    (capBatch cap snapshot).processed.length = cap ∧
    (capBatch cap snapshot).requeued.length = snapshot.length - cap ∧
    (capBatch cap snapshot).processed ++ (capBatch cap snapshot).requeued
      = snapshot := by
  have hc : capBatch cap snapshot = ⟨snapshot.take cap, snapshot.drop cap⟩ := by
    simp [capBatch, if_pos h]
  rw [hc]
  refine ⟨rfl, ?_, ?_, ?_⟩
  · simp only [List.length_take]
    omega
  · simp
  · simp

/-- Witness for C2: a snapshot of 3 entries with cap 2 processes the first
two and re-queues one. -/
theorem process_batch_cap_witness :
    2 < ([("a", FAction.created), ("b", FAction.modified),
          ("c", FAction.deleted)] : List (String × FAction)).length ∧
    (capBatch 2 [("a", FAction.created), ("b", FAction.modified),
        ("c", FAction.deleted)]).processed.length = 2 ∧
    (capBatch 2 [("a", FAction.created), ("b", FAction.modified),
        ("c", FAction.deleted)]).requeued.length = 3 - 2 := by
  have h := process_batch_cap 2
    [("a", FAction.created), ("b", FAction.modified), ("c", FAction.deleted)]
    (by decide)
  exact ⟨by decide, h.2.1, h.2.2.1⟩

end CodeRag
